import Mathlib

/-!
Verification of the document-to-layout pipeline of `small_browser`.

The Rust sources use the `combine` parser-combinator library.  We embed the
parsers shallowly: a parser is a function from the remaining input
(`List Char`) to a result that records, as `combine` does, the parsed value,
the remaining input, and whether any input was consumed — or an error
together with the consumed flag.  `attempt`, `choice`, `many`, `sep_by` and
`sep_end_by` follow combine's (parsec-style) consumed/empty discipline:
`choice` tries the next alternative only after an error that consumed no
input, and the repetition combinators abort on an error that consumed input.

Character classes: combine's `letter()` / `space()` test Rust's
`char::is_alphabetic` / `char::is_whitespace`.  We use Lean's `Char.isAlpha`
and `Char.isWhitespace` as the (ASCII-faithful) embedding of these tests;
every claim below only involves ASCII inputs.
-/

namespace SmallBrowser

/-- Result of running a parser: mirrors combine's `Ok`/`Err` with the
`Consumed` flag. -/
inductive PResult (α : Type) where
  | ok (value : α) (rest : List Char) (consumed : Bool)
  | err (consumed : Bool)
deriving Repr

def Parser (α : Type) : Type := List Char → PResult α

/-- `satisfy`: consume one character matching the predicate. -/
def satisfy (p : Char → Bool) : Parser Char := fun input =>
  match input with
  | [] => .err false
  | c :: rest => if p c then .ok c rest true else .err false

/-- combine's `char(c)`. -/
def pchar (c : Char) : Parser Char := satisfy (· == c)

/-- combine's `letter()` (`char::is_alphabetic`). -/
def letterP : Parser Char := satisfy Char.isAlpha

/-- combine's `space()` (`char::is_whitespace`). -/
def spaceP : Parser Char := satisfy Char.isWhitespace

/-- combine's `newline()`. -/
def newlineP : Parser Char := pchar '\n'

def pmap (p : Parser α) (f : α → β) : Parser β := fun input =>
  match p input with
  | .ok a rest c => .ok (f a) rest c
  | .err c => .err c

/-- Sequencing of two parsers (a combine tuple of two elements). -/
def pseq (p : Parser α) (q : Parser β) : Parser (α × β) := fun input =>
  match p input with
  | .err c => .err c
  | .ok a rest c1 =>
    match q rest with
    | .err c2 => .err (c1 || c2)
    | .ok b rest2 c2 => .ok (a, b) rest2 (c1 || c2)

def pseqRight (p : Parser α) (q : Parser β) : Parser β := pmap (pseq p q) Prod.snd

def pseqLeft (p : Parser α) (q : Parser β) : Parser α := pmap (pseq p q) Prod.fst

def pseq3 (p1 : Parser α1) (p2 : Parser α2) (p3 : Parser α3) :
    Parser (α1 × α2 × α3) :=
  pmap (pseq p1 (pseq p2 p3)) id

def pseq4 (p1 : Parser α1) (p2 : Parser α2) (p3 : Parser α3) (p4 : Parser α4) :
    Parser (α1 × α2 × α3 × α4) :=
  pmap (pseq p1 (pseq p2 (pseq p3 p4))) id

def pseq5 (p1 : Parser α1) (p2 : Parser α2) (p3 : Parser α3) (p4 : Parser α4)
    (p5 : Parser α5) : Parser (α1 × α2 × α3 × α4 × α5) :=
  pmap (pseq p1 (pseq p2 (pseq p3 (pseq p4 p5)))) id

def pseq6 (p1 : Parser α1) (p2 : Parser α2) (p3 : Parser α3) (p4 : Parser α4)
    (p5 : Parser α5) (p6 : Parser α6) : Parser (α1 × α2 × α3 × α4 × α5 × α6) :=
  pmap (pseq p1 (pseq p2 (pseq p3 (pseq p4 (pseq p5 p6))))) id

def pseq7 (p1 : Parser α1) (p2 : Parser α2) (p3 : Parser α3) (p4 : Parser α4)
    (p5 : Parser α5) (p6 : Parser α6) (p7 : Parser α7) :
    Parser (α1 × α2 × α3 × α4 × α5 × α6 × α7) :=
  pmap (pseq p1 (pseq p2 (pseq p3 (pseq p4 (pseq p5 (pseq p6 p7)))))) id

/-- combine's `attempt`: failure never counts as consuming. -/
def attempt (p : Parser α) : Parser α := fun input =>
  match p input with
  | .err _ => .err false
  | r => r

/-- Ordered alternative (a two-armed combine `choice`): the second branch is
tried only when the first fails without consuming input. -/
def porElse (p q : Parser α) : Parser α := fun input =>
  match p input with
  | .err false => q input
  | r => r

/-- combine's `and_then`, whose closure may reject the parsed value with a
stream error (carrying the consumed flag of the sequence). -/
def pandThen (p : Parser α) (f : α → Option β) : Parser β := fun input =>
  match p input with
  | .err c => .err c
  | .ok a rest c =>
    match f a with
    | some b => .ok b rest c
    | none => .err c

/-- combine's `optional`. -/
def poptional (p : Parser α) : Parser (Option α) := fun input =>
  match p input with
  | .ok a rest c => .ok (some a) rest c
  | .err true => .err true
  | .err false => .ok none input false

/-- Iteration worker for `many`: stops on an error that consumed nothing,
aborts on an error that consumed input.  The fuel argument only serves
termination; `pmany` supplies `input.length + 1`, which is sufficient for
every repeated parser in this development because each of them consumes at
least one character on success. -/
def manyAux (p : Parser α) : Nat → List Char → PResult (List α)
  | 0, _ => .err false
  | fuel + 1, input =>
    match p input with
    | .err true => .err true
    | .err false => .ok [] input false
    | .ok a rest c =>
      match manyAux p fuel rest with
      | .err c2 => .err (c || c2)
      | .ok as rest2 c2 => .ok (a :: as) rest2 (c || c2)

/-- combine's `many`. -/
def pmany (p : Parser α) : Parser (List α) := fun input =>
  manyAux p (input.length + 1) input

/-- combine's `many1`. -/
def many1 (p : Parser α) : Parser (List α) :=
  pmap (pseq p (pmany p)) (fun x => x.1 :: x.2)

/-- combine's `between(open, close, p)`. -/
def between (opn cls : Parser α) (p : Parser β) : Parser β :=
  pmap (pseq (pseq opn p) cls) (fun x => x.1.2)

/-- combine's `skip_many(space())`, i.e. `spaces()`. -/
def spacesP : Parser Unit := pmap (pmany spaceP) (fun _ => ())

/-- Worker for `sep_end_by`: `p (sep p)* sep?`, with parsec/combine's
consumed/empty discipline.  Fuel as in `manyAux`. -/
def sepEndByAux (p : Parser α) (sep : Parser β) : Nat → List Char → PResult (List α)
  | 0, _ => .err false
  | fuel + 1, input =>
    match p input with
    | .err true => .err true
    | .err false => .ok [] input false
    | .ok x rest c1 =>
      match sep rest with
      | .err true => .err true
      | .err false => .ok [x] rest c1
      | .ok _ rest2 c2 =>
        match sepEndByAux p sep fuel rest2 with
        | .err c3 => .err (c1 || c2 || c3)
        | .ok xs rest3 c3 => .ok (x :: xs) rest3 (c1 || c2 || c3)

/-- combine's `sep_end_by`. -/
def sepEndBy (p : Parser α) (sep : Parser β) : Parser (List α) := fun input =>
  sepEndByAux p sep (input.length + 1) input

/-- combine's `sep_by`: `p (sep p)*` (zero items allowed). -/
def sepBy (p : Parser α) (sep : Parser β) : Parser (List α) := fun input =>
  match p input with
  | .err true => .err true
  | .err false => .ok [] input false
  | .ok x rest c1 =>
    match pmany (pseqRight sep p) rest with
    | .err c2 => .err (c1 || c2)
    | .ok xs rest2 c2 => .ok (x :: xs) rest2 (c1 || c2)

/-- combine's `string(s)`. -/
def pstringAux (expected : List Char) (whole : List Char) :
    Bool → List Char → PResult (List Char)
  | consumed, input =>
    match expected with
    | [] => .ok whole input consumed
    | c :: cs =>
      match input with
      | [] => .err consumed
      | x :: xs => if x == c then pstringAux cs whole true xs else .err consumed

def pstring (s : List Char) : Parser (List Char) := fun input =>
  pstringAux s s false input

/-! ## Document tree model (`dom.rs`)

`AttrMap = HashMap<String, String>` is embedded as an association list whose
construction (`from_iter` / `insert`) replaces an existing binding for the
same key, matching hash-map insertion; `get` is keyed lookup. -/

def AttrMap : Type := List (String × String)

def AttrMap.empty : AttrMap := ([] : List (String × String))

def AttrMap.insert (m : AttrMap) (k v : String) : AttrMap :=
  match m with
  | ([] : List (String × String)) => [(k, v)]
  | (k', v') :: rest => if k' == k then (k, v) :: rest else (k', v') :: AttrMap.insert rest k v

/-- `AttrMap::from_iter` over the parsed attribute pairs. -/
def AttrMap.fromList (l : List (String × String)) : AttrMap :=
  l.foldl (fun m kv => m.insert kv.1 kv.2) AttrMap.empty

/-- `HashMap::get`. -/
def AttrMap.get (m : AttrMap) (k : String) : Option String :=
  match m with
  | ([] : List (String × String)) => none
  | (k', v') :: rest => if k' == k then some v' else AttrMap.get rest k

structure Element where
  tag_name : String
  attributes : AttrMap

structure Text where
  data : String

inductive NodeType where
  | element (e : Element)
  | text (t : Text)

inductive Node where
  | mk (node_type : NodeType) (children : List Node)

def Node.node_type : Node → NodeType
  | .mk nt _ => nt

def Node.children : Node → List Node
  | .mk _ cs => cs

/-- `Element::new` (boxes are irrelevant in the embedding). -/
def Element.new (name : String) (attributes : AttrMap) (children : List Node) : Node :=
  .mk (.element ⟨name, attributes⟩) children

/-- `Text::new`. -/
def Text.new (text : String) : Node :=
  .mk (.text ⟨text⟩) []

/-- `Element::id`, i.e. `attributes.get("id")`. -/
def Element.id (e : Element) : Option String := e.attributes.get "id"

/-! ## Markup parser (`html.rs`) -/

/-- Rust's `str::trim` on the character list: drop whitespace from both
ends. -/
def trimChars (l : List Char) : List Char :=
  ((l.dropWhile Char.isWhitespace).reverse.dropWhile Char.isWhitespace).reverse

/-- `blank()` from the crate root: `many(space().or(newline()))`. -/
def blankP : Parser Unit := pmap (pmany (porElse spaceP newlineP)) (fun _ => ())

/-- `attribute()`: `name \s* = \s* "value"`. -/
def attributeP : Parser (String × String) :=
  pmap
    (pseq5 (pmap (many1 letterP) String.mk) blankP (pchar '=') blankP
      (between (pchar '"') (pchar '"')
        (pmap (many1 (satisfy (fun c => !(c == '"')))) String.mk)))
    (fun v => (v.1, v.2.2.2.2))

/-- `attributes()`: `sep_end_by(attribute(), blank())` collected into an
`AttrMap`. -/
def attributesP : Parser AttrMap :=
  pmap (sepEndBy attributeP blankP) AttrMap.fromList

/-- `open_tag()`: `<name attrs>`. -/
def openTagP : Parser (String × AttrMap) :=
  pmap (pseq5 (pchar '<') (pmap (many1 letterP) String.mk) blankP attributesP (pchar '>'))
    (fun v => (v.2.1, v.2.2.2.1))

/-- `close_tag()`: `</name>`. -/
def closeTagP : Parser String :=
  pmap (pseq4 (pchar '<') (pchar '/') (pmap (many1 letterP) String.mk) (pchar '>'))
    (fun v => v.2.2.1)

/-- `text()`: a nonempty run of characters other than `<`, trimmed. -/
def textP : Parser Node :=
  pmap (many1 (satisfy (fun c => !(c == '<'))))
    (fun t => Text.new (String.mk (trimChars t)))

/-- `nodes_()` parameterized by the element parser:
`attempt(many(choice((attempt(element()), attempt(text())))))`. -/
def nodesRaw (elem : Parser Node) : Parser (List Node) :=
  attempt (pmany (porElse (attempt elem) (attempt textP)))

/-- The filter applied by `nodes()`: drop text nodes that are empty after
trimming. -/
def nodesFilter (ns : List Node) : List Node :=
  ns.filter fun n =>
    match n.node_type with
    | .text t => !(trimChars t.data.data).isEmpty
    | _ => true

/-- `nodes()` parameterized by the element parser. -/
def nodesOf (elem : Parser Node) : Parser (List Node) :=
  pmap (nodesRaw elem) nodesFilter

/-- The body of `element()` parameterized by the `nodes()` parser it uses for
the children: open tag, children, close tag, and the tag-name equality check
performed in `and_then` (mismatch is a stream error). -/
def elementCore (nodes : Parser (List Node)) : Parser Node :=
  pandThen (pseq5 openTagP blankP nodes blankP closeTagP)
    (fun v =>
      let openName := v.1.1
      let attrs := v.1.2
      let children := v.2.2.1
      let closeName := v.2.2.2.2
      if openName == closeName then some (Element.new openName attrs children) else none)

/-- `element()`, with fuel bounding the element-nesting depth.  Every level
of nesting consumes at least the opening `<` before recursing, so any fuel
of at least the input length is sufficient; with insufficient inputs of that
size (fuel 0 forces the empty input) the base case coincides with the real
parser, which fails without consuming on empty input. -/
def elementF : Nat → Parser Node
  | 0 => fun _ => .err false
  | fuel + 1 => elementCore (nodesOf (elementF fuel))

/-- The top-level `nodes()` parser as used by `parse_raw`. -/
def nodesP : Parser (List Node) := fun input =>
  nodesOf (elementF input.length) input

/-- A top-level run of `element()` (used by the tests in `html.rs`). -/
def elementP : Parser Node := fun input =>
  elementF input.length input

/-- `parse_raw`: runs `nodes()` and unwraps; the `.unwrap()` panic on a parse
error is embedded as `none`. -/
def parse_raw (raw : String) : Option (List Node) :=
  match nodesP raw.data with
  | .ok ns _ _ => some ns
  | .err _ => none

/-- `parse`: single top-level node is returned as the root, otherwise an
`html` element wraps all top-level nodes. -/
def parse (raw : String) : Option Node :=
  (parse_raw raw).map fun ns =>
    match ns with
    | [n] => n
    | ns => Element.new "html" AttrMap.empty ns

/-! ## Stylesheet model and parser (`css.rs`) -/

inductive AttributeSelectorOp where
  | eq      -- `=`
  | contain -- `~=`
deriving DecidableEq

inductive SimpleSelector where
  | universalSelector
  | typeSelector (tag_name : String)
  | attributeSelector (tag_name : String) (op : AttributeSelectorOp)
      (attr : String) (value : String)
  | classSelector (class_name : String)

inductive CSSValue where
  | keyword (s : String)
deriving DecidableEq

structure Declaration where
  name : String
  value : CSSValue

structure Rule where
  selectors : List SimpleSelector
  declarations : List Declaration

structure Stylesheet where
  rules : List Rule

/-- Rust's `str::split_whitespace`: maximal runs of non-whitespace
characters. -/
def splitWhitespaceAux : List Char → List Char → List (List Char)
  | [], acc => if acc.isEmpty then [] else [acc.reverse]
  | c :: cs, acc =>
    if c.isWhitespace then
      if acc.isEmpty then splitWhitespaceAux cs []
      else acc.reverse :: splitWhitespaceAux cs []
    else splitWhitespaceAux cs (c :: acc)

def splitWhitespace (l : List Char) : List (List Char) :=
  splitWhitespaceAux l []

/-- `SimpleSelector::matches`. -/
def SimpleSelector.matches (s : SimpleSelector) (node : Node) : Bool :=
  match s with
  | .universalSelector => true
  | .typeSelector tag_name =>
    match node.node_type with
    | .element e => e.tag_name == tag_name
    | _ => false
  | .attributeSelector tag_name op attr value =>
    match node.node_type with
    | .element e =>
      if !(e.tag_name == tag_name) then false
      else
        match op with
        | .eq => e.attributes.get attr == some value
        | .contain =>
          match e.attributes.get attr with
          | some v => (splitWhitespace v.data).any (fun w => w == value.data)
          | none => false
    | _ => false
  | .classSelector class_name =>
    match node.node_type with
    | .element e => e.attributes.get "class" == some class_name
    | _ => false

/-- `Rule::matches`: any selector matches. -/
def Rule.matches (r : Rule) (node : Node) : Bool :=
  r.selectors.any (fun s => s.matches node)

def cssValueP : Parser CSSValue :=
  pmap (many1 letterP) (fun v => CSSValue.keyword (String.mk v))

def declarationP : Parser Declaration :=
  pmap (pseq5 (pmap (many1 letterP) String.mk) spacesP (pchar ':') spacesP cssValueP)
    (fun v => ⟨v.1, v.2.2.2.2⟩)

def declarationsP : Parser (List Declaration) :=
  sepEndBy (pseqLeft declarationP spacesP) (pseqLeft (pchar ';') spacesP)

def universalSelectorP : Parser SimpleSelector :=
  pmap (pchar '*') (fun _ => SimpleSelector.universalSelector)

def classSelectorP : Parser SimpleSelector :=
  pmap (pseq (pchar '.') (pmap (many1 letterP) String.mk))
    (fun v => SimpleSelector.classSelector v.2)

/-- `selector_op()`: parses `=` or `~=`; the mapped closure's catch-all arm
yields a stream error, embedded as `none` (it is dead code, since `choice`
only ever yields one of the two strings). -/
def selectorOpP : Parser (Option AttributeSelectorOp) :=
  pmap (porElse (pstring ['=']) (pstring ['~', '=']))
    (fun op =>
      if op == ['='] then some .eq
      else if op == ['~', '='] then some .contain
      else none)

/-- `type_or_attribute_selector()`. -/
def typeOrAttributeSelectorP : Parser SimpleSelector :=
  pandThen
    (pseq3 (pmap (many1 letterP) String.mk) spacesP
      (poptional
        (pseq6 (pchar '[') spacesP (pmap (many1 letterP) String.mk) selectorOpP
          (pmap (many1 letterP) String.mk) (pchar ']'))))
    (fun v =>
      let tag_name := v.1
      match v.2.2 with
      | none => some (SimpleSelector.typeSelector tag_name)
      | some w =>
        let attr := w.2.2.1
        let op := w.2.2.2.1
        let value := w.2.2.2.2.1
        match op with
        | some op => some (SimpleSelector.attributeSelector tag_name op attr value)
        | none => none)

def simpleSelectorP : Parser SimpleSelector :=
  porElse universalSelectorP (porElse classSelectorP typeOrAttributeSelectorP)

def selectorsP : Parser (List SimpleSelector) :=
  sepBy (pseqLeft simpleSelectorP spacesP) (pseq (pchar ',') spacesP)

def ruleP : Parser Rule :=
  pmap
    (pseq7 selectorsP spacesP (pchar '{') spacesP declarationsP spacesP (pchar '}'))
    (fun v => ⟨v.1, v.2.2.2.2.1⟩)

def rulesP : Parser (List Rule) :=
  pmap (pseq3 spacesP (sepBy ruleP spacesP) spacesP) (fun v => v.2.1)

/-- `css::parse`: the whole-input run of `rules()`; a parse error is
propagated unchanged (`anyhow::Result` embedded as `Option`). -/
def cssParse (raw : String) : Option Stylesheet :=
  match rulesP raw.data with
  | .ok rules _ _ => some ⟨rules⟩
  | .err _ => none

/-! ## Tree search (`dom.rs`: `Node::get_element_by_id`) -/

mutual

/-- `Node::get_element_by_id`: return this node if it is an `Element` whose
`id` attribute equals `id`, otherwise the first hit of `find_map` over the
children (the mutable reference of the original is embedded as the node
value itself). -/
def Node.get_element_by_id : Node → String → Option Node
  | .mk nt cs, i =>
    match nt with
    | .element e =>
      if (e.id.map (fun eid => eid == i)).getD false then some (.mk nt cs)
      else getByIdList cs i
    | _ => getByIdList cs i

/-- `children.iter_mut().find_map(|child| child.get_element_by_id(id))`. -/
def getByIdList : List Node → String → Option Node
  | [], _ => none
  | c :: cs, i =>
    match Node.get_element_by_id c i with
    | some r => some r
    | none => getByIdList cs i

end

mutual

/-- Pre-order depth-first listing of a tree: the node itself, then the
children's listings in order.  (Specification vocabulary for C10.) -/
def Node.preorder : Node → List Node
  | .mk nt cs => .mk nt cs :: preorderList cs

def preorderList : List Node → List Node
  | [] => []
  | c :: cs => c.preorder ++ preorderList cs

end

/-! ## Styled tree and layout engine (`style.rs` is not under `src/`;
`layout.rs`) -/

def PropertyMap : Type := List (String × CSSValue)

def PropertyMap.get (m : PropertyMap) (k : String) : Option CSSValue :=
  match m with
  | ([] : List (String × CSSValue)) => none
  | (k', v') :: rest => if k' == k then some v' else PropertyMap.get rest k

inductive Display where
  | block
  | inline
  | none
deriving DecidableEq

inductive StyledNode where
  | mk (node_type : NodeType) (properties : PropertyMap) (children : List StyledNode)

def StyledNode.node_type : StyledNode → NodeType
  | .mk nt _ _ => nt

def StyledNode.properties : StyledNode → PropertyMap
  | .mk _ ps _ => ps

def StyledNode.children : StyledNode → List StyledNode
  | .mk _ _ cs => cs

/-- Modelled from the spec: `StyledNode::display` lives in `style.rs`, which
is not under `src/` (only its callers in `layout.rs` and `main.rs` are).
§4.4: "Determine `display` from the Property Map's `display` keyword,
defaulting to `Inline` for Text nodes and `Block` for Element nodes when
absent."  Keywords other than `block`/`inline`/`none` are not mentioned by
the spec and fall back to the same node-type default. -/
def StyledNode.display (s : StyledNode) : Display :=
  match s.properties.get "display" with
  | some (.keyword "block") => .block
  | some (.keyword "inline") => .inline
  | some (.keyword "none") => .none
  | _ =>
    match s.node_type with
    | .text _ => .inline
    | .element _ => .block

structure BoxProps where
  node_type : NodeType
  properties : PropertyMap

/-- `BoxProps::from(&snode)`. -/
def BoxProps.from (s : StyledNode) : BoxProps :=
  ⟨s.node_type, s.properties⟩

inductive BoxType where
  | blockBox (p : BoxProps)
  | inlineBox (p : BoxProps)
  | anonymousBox

inductive LayoutBox where
  | mk (box_type : BoxType) (children : List LayoutBox)

def LayoutBox.box_type : LayoutBox → BoxType
  | .mk bt _ => bt

def LayoutBox.children : LayoutBox → List LayoutBox
  | .mk _ cs => cs

/-- `LayoutBox::anonymous_block()`. -/
def LayoutBox.anonymous_block : LayoutBox := .mk .anonymousBox []

/-- One step of the child loop in `LayoutBox::new`: route an already-built
child box into the root.  A block child is appended to the root's children;
an inline child is pushed into `get_inline_container()`: the root itself if
it is inline or anonymous, otherwise the root's last child when that is an
`AnonymousBox` (`box_type` comparison ignores its children), else a freshly
appended `AnonymousBox`; an anonymous child is dropped. -/
def LayoutBox.insertChild (root child : LayoutBox) : LayoutBox :=
  match child.box_type with
  | .blockBox _ => .mk root.box_type (root.children ++ [child])
  | .inlineBox _ =>
    match root.box_type with
    | .inlineBox _ => .mk root.box_type (root.children ++ [child])
    | .anonymousBox => .mk root.box_type (root.children ++ [child])
    | .blockBox _ =>
      match root.children.getLast? with
      | some (.mk .anonymousBox acs) =>
        .mk root.box_type (root.children.dropLast ++ [.mk .anonymousBox (acs ++ [child])])
      | _ =>
        .mk root.box_type (root.children ++ [.mk .anonymousBox [child]])
  | .anonymousBox => root

mutual

/-- `LayoutBox::new`: box type from the node's display (the
`Display::None => unreachable!()` panic is embedded as `none`), then the
children are built recursively and routed by `insertChild`. -/
def LayoutBox.new : StyledNode → Option LayoutBox
  | .mk nt props cs =>
    match (StyledNode.mk nt props cs).display with
    | .none => none
    | .inline => newFold (.mk (.inlineBox ⟨nt, props⟩) []) cs
    | .block => newFold (.mk (.blockBox ⟨nt, props⟩) []) cs

/-- The `for child in snode.children` loop of `LayoutBox::new`. -/
def newFold : LayoutBox → List StyledNode → Option LayoutBox
  | root, [] => some root
  | root, c :: cs =>
    match LayoutBox.new c with
    | Option.none => none
    | some cb => newFold (root.insertChild cb) cs

end

/-! ## Generic facts about the combinators -/

/-- Successful runs never lengthen the remaining input. -/
def NonExp (p : Parser α) : Prop :=
  ∀ inp a r c, p inp = .ok a r c → r.length ≤ inp.length

/-- Successful runs consume at least one character. -/
def Consumes (p : Parser α) : Prop :=
  ∀ inp a r c, p inp = .ok a r c → r.length < inp.length

/-- The parser never fails after consuming input. -/
def NoConsErr (p : Parser α) : Prop :=
  ∀ inp, p inp ≠ .err true

/-- Successful runs always report the consumed flag. -/
def FlagTrue (p : Parser α) : Prop :=
  ∀ inp a r c, p inp = .ok a r c → c = true

theorem consumes_nonExp {p : Parser α} (h : Consumes p) : NonExp p :=
  fun inp a r c hr => Nat.le_of_lt (h inp a r c hr)

theorem satisfy_consumes (q : Char → Bool) : Consumes (satisfy q) := by
  intro inp a r c h
  unfold satisfy at h
  cases inp with
  | nil => simp at h
  | cons x xs =>
    by_cases hq : q x
    · simp [hq] at h
      simp [h.2.1.symm]
    · simp [hq] at h

theorem satisfy_flagTrue (q : Char → Bool) : FlagTrue (satisfy q) := by
  intro inp a r c h
  unfold satisfy at h
  cases inp with
  | nil => simp at h
  | cons x xs =>
    by_cases hq : q x
    · simp [hq] at h
      exact h.2.2
    · simp [hq] at h

theorem pchar_consumes (ch : Char) : Consumes (pchar ch) := satisfy_consumes _

/-- Inversion for `pmap`. -/
theorem pmap_ok_inv {p : Parser α} {f : α → β} {inp : List Char} {b : β}
    {r : List Char} {c : Bool} (h : pmap p f inp = .ok b r c) :
    ∃ a, p inp = .ok a r c ∧ b = f a := by
  unfold pmap at h
  split at h
  · rename_i a r' c' heq
    cases h
    exact ⟨a, heq, rfl⟩
  · cases h

/-- Inversion for `pseq`. -/
theorem pseq_ok_inv {p : Parser α} {q : Parser β} {inp : List Char} {ab : α × β}
    {r : List Char} {c : Bool} (h : pseq p q inp = .ok ab r c) :
    ∃ r1 c1 c2, p inp = .ok ab.1 r1 c1 ∧ q r1 = .ok ab.2 r c2 ∧ c = (c1 || c2) := by
  unfold pseq at h
  split at h
  · cases h
  · rename_i a r1 c1 heq1
    split at h
    · cases h
    · rename_i b r2 c2 heq2
      cases h
      exact ⟨r1, c1, c2, heq1, heq2, rfl⟩

/-- Inversion for `pandThen`. -/
theorem pandThen_ok_inv {p : Parser α} {f : α → Option β} {inp : List Char}
    {b : β} {r : List Char} {c : Bool} (h : pandThen p f inp = .ok b r c) :
    ∃ a, p inp = .ok a r c ∧ f a = some b := by
  unfold pandThen at h
  split at h
  · cases h
  · rename_i a r' c' heq
    split at h
    · rename_i b' heq2
      cases h
      exact ⟨a, heq, heq2⟩
    · cases h

/-- Inversion for `attempt`. -/
theorem attempt_ok_inv {p : Parser α} {inp : List Char} {a : α} {r : List Char}
    {c : Bool} (h : attempt p inp = .ok a r c) : p inp = .ok a r c := by
  unfold attempt at h
  split at h
  · cases h
  · exact h

/-- Inversion for `porElse`. -/
theorem porElse_ok_inv {p q : Parser α} {inp : List Char} {a : α} {r : List Char}
    {c : Bool} (h : porElse p q inp = .ok a r c) :
    p inp = .ok a r c ∨ (p inp = .err false ∧ q inp = .ok a r c) := by
  unfold porElse at h
  split at h
  · rename_i heq
    exact Or.inr ⟨heq, h⟩
  · exact Or.inl h

/-- Inversion for `poptional`. -/
theorem poptional_ok_inv {p : Parser α} {inp : List Char} {o : Option α}
    {r : List Char} {c : Bool} (h : poptional p inp = .ok o r c) :
    (∃ a, o = some a ∧ p inp = .ok a r c) ∨ (o = none ∧ r = inp ∧ c = false ∧ p inp = .err false) := by
  unfold poptional at h
  split at h
  · rename_i a r' c' heq
    cases h
    exact Or.inl ⟨a, rfl, heq⟩
  · cases h
  · rename_i heq
    cases h
    exact Or.inr ⟨rfl, rfl, rfl, heq⟩

theorem pmap_nonExp {p : Parser α} (f : α → β) (h : NonExp p) : NonExp (pmap p f) := by
  intro inp a r c hr
  obtain ⟨a', hp, -⟩ := pmap_ok_inv hr
  exact h inp a' r c hp

theorem pmap_consumes {p : Parser α} (f : α → β) (h : Consumes p) : Consumes (pmap p f) := by
  intro inp a r c hr
  obtain ⟨a', hp, -⟩ := pmap_ok_inv hr
  exact h inp a' r c hp

theorem pseq_nonExp {p : Parser α} {q : Parser β} (hp : NonExp p) (hq : NonExp q) :
    NonExp (pseq p q) := by
  intro inp a r c hr
  obtain ⟨r1, c1, c2, h1, h2, -⟩ := pseq_ok_inv hr
  exact Nat.le_trans (hq r1 a.2 r c2 h2) (hp inp a.1 r1 c1 h1)

theorem pseq_consumes_left {p : Parser α} {q : Parser β} (hp : Consumes p) (hq : NonExp q) :
    Consumes (pseq p q) := by
  intro inp a r c hr
  obtain ⟨r1, c1, c2, h1, h2, -⟩ := pseq_ok_inv hr
  exact Nat.lt_of_le_of_lt (hq r1 a.2 r c2 h2) (hp inp a.1 r1 c1 h1)

theorem attempt_nonExp {p : Parser α} (h : NonExp p) : NonExp (attempt p) := by
  intro inp a r c hr
  exact h inp a r c (attempt_ok_inv hr)

theorem attempt_consumes {p : Parser α} (h : Consumes p) : Consumes (attempt p) := by
  intro inp a r c hr
  exact h inp a r c (attempt_ok_inv hr)

theorem attempt_noConsErr (p : Parser α) : NoConsErr (attempt p) := by
  intro inp h
  unfold attempt at h
  split at h
  · cases h
  · rename_i hne
    exact absurd h (hne true)

theorem porElse_nonExp {p q : Parser α} (hp : NonExp p) (hq : NonExp q) :
    NonExp (porElse p q) := by
  intro inp a r c hr
  rcases porElse_ok_inv hr with h | ⟨-, h⟩
  · exact hp inp a r c h
  · exact hq inp a r c h

theorem porElse_consumes {p q : Parser α} (hp : Consumes p) (hq : Consumes q) :
    Consumes (porElse p q) := by
  intro inp a r c hr
  rcases porElse_ok_inv hr with h | ⟨-, h⟩
  · exact hp inp a r c h
  · exact hq inp a r c h

theorem porElse_noConsErr {p q : Parser α} (hp : NoConsErr p) (hq : NoConsErr q) :
    NoConsErr (porElse p q) := by
  intro inp h
  unfold porElse at h
  split at h
  · exact hq inp h
  · exact hp inp h

theorem pandThen_nonExp {p : Parser α} (f : α → Option β) (h : NonExp p) :
    NonExp (pandThen p f) := by
  intro inp a r c hr
  obtain ⟨a', hp, -⟩ := pandThen_ok_inv hr
  exact h inp a' r c hp

theorem pandThen_consumes {p : Parser α} (f : α → Option β) (h : Consumes p) :
    Consumes (pandThen p f) := by
  intro inp a r c hr
  obtain ⟨a', hp, -⟩ := pandThen_ok_inv hr
  exact h inp a' r c hp

theorem poptional_nonExp {p : Parser α} (h : NonExp p) : NonExp (poptional p) := by
  intro inp a r c hr
  rcases poptional_ok_inv hr with ⟨a', -, hp⟩ | ⟨-, rfl, -, -⟩
  · exact h inp a' r c hp
  · exact Nat.le_refl _

/-- Inversion for `manyAux`: a successful run ends at a point where the
repeated parser fails without consuming. -/
theorem manyAux_ok_stop {p : Parser α} :
    ∀ {fuel : Nat} {inp : List Char} {as : List α} {r : List Char} {c : Bool},
      manyAux p fuel inp = .ok as r c → p r = .err false := by
  intro fuel
  induction fuel with
  | zero => intro inp as r c h; simp [manyAux] at h
  | succ n ih =>
    intro inp as r c h
    unfold manyAux at h
    split at h
    · cases h
    · rename_i heq
      cases h
      exact heq
    · rename_i a1 r1 c1 heq1
      split at h
      · cases h
      · rename_i as2 r2 c2 heq2
        cases h
        exact ih heq2

/-- Every element of a successful `manyAux` run is produced by a successful
run of the repeated parser. -/
theorem manyAux_ok_mem {p : Parser α} :
    ∀ {fuel : Nat} {inp : List Char} {as : List α} {r : List Char} {c : Bool},
      manyAux p fuel inp = .ok as r c →
      ∀ a ∈ as, ∃ inp2 r2 c2, p inp2 = .ok a r2 c2 := by
  intro fuel
  induction fuel with
  | zero => intro inp as r c h; simp [manyAux] at h
  | succ n ih =>
    intro inp as r c h
    unfold manyAux at h
    split at h
    · cases h
    · cases h
      intro a ha
      cases ha
    · rename_i a1 r1 c1 heq1
      split at h
      · cases h
      · rename_i as2 r2 c2 heq2
        cases h
        intro a ha
        rcases List.mem_cons.mp ha with rfl | ha2
        · exact ⟨inp, r1, c1, heq1⟩
        · exact ih heq2 a ha2

theorem manyAux_nonExp {p : Parser α} (h : NonExp p) :
    ∀ {fuel : Nat} {inp : List Char} {as : List α} {r : List Char} {c : Bool},
      manyAux p fuel inp = .ok as r c → r.length ≤ inp.length := by
  intro fuel
  induction fuel with
  | zero => intro inp as r c hr; simp [manyAux] at hr
  | succ n ih =>
    intro inp as r c hr
    unfold manyAux at hr
    split at hr
    · cases hr
    · cases hr
      exact Nat.le_refl _
    · rename_i a1 r1 c1 heq1
      split at hr
      · cases hr
      · rename_i as2 r2 c2 heq2
        cases hr
        exact Nat.le_trans (ih heq2) (h inp a1 r1 c1 heq1)

/-- If the repeated parser never fails after consuming and always consumes on
success, `manyAux` with fuel exceeding the input length succeeds. -/
theorem manyAux_total {p : Parser α} (hne : NoConsErr p) (hc : Consumes p) :
    ∀ {fuel : Nat} {inp : List Char}, inp.length < fuel →
      ∃ as r c, manyAux p fuel inp = .ok as r c := by
  intro fuel
  induction fuel with
  | zero => intro inp h; omega
  | succ n ih =>
    intro inp hlen
    unfold manyAux
    cases hp : p inp with
    | err c =>
      cases c with
      | true => exact absurd hp (hne inp)
      | false => exact ⟨[], inp, false, rfl⟩
    | ok a r1 c1 =>
      have hr1 : r1.length < n := Nat.lt_of_lt_of_le (hc inp a r1 c1 hp) (Nat.lt_succ_iff.mp hlen)
      obtain ⟨as2, r2, c2, h2⟩ := ih hr1
      refine ⟨a :: as2, r2, c1 || c2, ?_⟩
      simp only [hp, h2]

/-- If the repeated parser always reports consumption on success, a
`manyAux` run whose flag is `false` did not move. -/
theorem manyAux_flagFalse {p : Parser α} (hf : FlagTrue p) :
    ∀ {fuel : Nat} {inp : List Char} {as : List α} {r : List Char},
      manyAux p fuel inp = .ok as r false → r = inp := by
  intro fuel
  induction fuel with
  | zero => intro inp as r h; simp [manyAux] at h
  | succ n ih =>
    intro inp as r h
    unfold manyAux at h
    split at h
    · cases h
    · cases h
      rfl
    · rename_i a1 r1 c1 heq1
      split at h
      · cases h
      · rename_i as2 r2 c2 heq2
        cases hf inp a1 r1 c1 heq1
        cases h

theorem pmany_nonExp {p : Parser α} (h : NonExp p) : NonExp (pmany p) := by
  intro inp as r c hr
  exact manyAux_nonExp h hr

theorem pmany_noConsErr {p : Parser α} (hne : NoConsErr p) (hc : Consumes p) :
    NoConsErr (pmany p) := by
  intro inp h
  obtain ⟨as, r, c, hok⟩ := manyAux_total hne hc (Nat.lt_succ_self inp.length)
  rw [pmany, hok] at h
  cases h

theorem many1_consumes {p : Parser α} (h : Consumes p) : Consumes (many1 p) :=
  pmap_consumes _ (pseq_consumes_left h (pmany_nonExp (consumes_nonExp h)))

theorem many1_nonExp {p : Parser α} (h : NonExp p) : NonExp (many1 p) :=
  pmap_nonExp _ (pseq_nonExp h (pmany_nonExp h))

theorem between_nonExp {o cl : Parser α} {p : Parser β} (ho : NonExp o)
    (hc : NonExp cl) (hp : NonExp p) : NonExp (between o cl p) :=
  pmap_nonExp _ (pseq_nonExp (pseq_nonExp ho hp) hc)

theorem sepEndByAux_nonExp {p : Parser α} {sep : Parser β} (hp : NonExp p)
    (hsep : NonExp sep) :
    ∀ {fuel : Nat} {inp : List Char} {as : List α} {r : List Char} {c : Bool},
      sepEndByAux p sep fuel inp = .ok as r c → r.length ≤ inp.length := by
  intro fuel
  induction fuel with
  | zero => intro inp as r c hr; simp [sepEndByAux] at hr
  | succ n ih =>
    intro inp as r c hr
    unfold sepEndByAux at hr
    split at hr
    · cases hr
    · cases hr
      exact Nat.le_refl _
    · rename_i x r1 c1 heq1
      split at hr
      · cases hr
      · cases hr
        exact hp inp x _ _ heq1
      · rename_i y r2 c2 heq2
        split at hr
        · cases hr
        · rename_i xs r3 c3 heq3
          cases hr
          exact Nat.le_trans (ih heq3)
            (Nat.le_trans (hsep r1 y r2 c2 heq2) (hp inp x r1 c1 heq1))

theorem sepEndBy_nonExp {p : Parser α} {sep : Parser β} (hp : NonExp p)
    (hsep : NonExp sep) : NonExp (sepEndBy p sep) := by
  intro inp as r c hr
  exact sepEndByAux_nonExp hp hsep hr

theorem pseqRight_nonExp {p : Parser α} {q : Parser β} (hp : NonExp p) (hq : NonExp q) :
    NonExp (pseqRight p q) := pmap_nonExp _ (pseq_nonExp hp hq)

theorem pseqLeft_nonExp {p : Parser α} {q : Parser β} (hp : NonExp p) (hq : NonExp q) :
    NonExp (pseqLeft p q) := pmap_nonExp _ (pseq_nonExp hp hq)

theorem sepBy_nonExp {p : Parser α} {sep : Parser β} (hp : NonExp p)
    (hsep : NonExp sep) : NonExp (sepBy p sep) := by
  intro inp as r c hr
  unfold sepBy at hr
  split at hr
  · cases hr
  · cases hr
    exact Nat.le_refl _
  · rename_i x r1 c1 heq1
    split at hr
    · cases hr
    · rename_i xs r2 c2 heq2
      cases hr
      exact Nat.le_trans (pmany_nonExp (pseqRight_nonExp hsep hp) _ _ _ _ heq2)
        (hp inp x r1 c1 heq1)


/-- Forward evaluation through `attempt`. -/
theorem attempt_ok_of {p : Parser α} {inp : List Char} {a : α} {r : List Char}
    {c : Bool} (h : p inp = .ok a r c) : attempt p inp = .ok a r c := by
  unfold attempt
  simp only [h]

/-- Forward evaluation through `pmap`. -/
theorem pmap_ok_of {p : Parser α} {f : α → β} {inp : List Char} {a : α}
    {r : List Char} {c : Bool} (h : p inp = .ok a r c) :
    pmap p f inp = .ok (f a) r c := by
  unfold pmap
  simp only [h]

/-- Forward evaluation through `pseq`. -/
theorem pseq_ok_of {p : Parser α} {q : Parser β} {inp r1 r2 : List Char}
    {a : α} {b : β} {c1 c2 : Bool} (h1 : p inp = .ok a r1 c1)
    (h2 : q r1 = .ok b r2 c2) : pseq p q inp = .ok (a, b) r2 (c1 || c2) := by
  unfold pseq
  simp only [h1, h2]

/-! ## Facts about the markup parsers -/

theorem blankP_nonExp : NonExp blankP :=
  pmap_nonExp _ (pmany_nonExp (porElse_nonExp
    (consumes_nonExp (satisfy_consumes _)) (consumes_nonExp (satisfy_consumes _))))

theorem attributeP_nonExp : NonExp attributeP := by
  unfold attributeP pseq5
  exact pmap_nonExp _ (pmap_nonExp _ (pseq_nonExp
    (pmap_nonExp _ (many1_nonExp (consumes_nonExp (satisfy_consumes _))))
    (pseq_nonExp blankP_nonExp (pseq_nonExp (consumes_nonExp (satisfy_consumes _))
      (pseq_nonExp blankP_nonExp
        (between_nonExp (consumes_nonExp (satisfy_consumes _)) (consumes_nonExp (satisfy_consumes _))
          (pmap_nonExp _ (many1_nonExp (consumes_nonExp (satisfy_consumes _))))))))))

theorem attributesP_nonExp : NonExp attributesP :=
  pmap_nonExp _ (sepEndBy_nonExp attributeP_nonExp blankP_nonExp)

theorem openTagP_consumes : Consumes openTagP := by
  unfold openTagP pseq5
  exact pmap_consumes _ (pmap_consumes _ (pseq_consumes_left (satisfy_consumes _)
    (pseq_nonExp (pmap_nonExp _ (many1_nonExp (consumes_nonExp (satisfy_consumes _))))
      (pseq_nonExp blankP_nonExp (pseq_nonExp attributesP_nonExp
        (consumes_nonExp (satisfy_consumes _)))))))

theorem closeTagP_nonExp : NonExp closeTagP := by
  unfold closeTagP pseq4
  exact pmap_nonExp _ (pmap_nonExp _ (pseq_nonExp (consumes_nonExp (satisfy_consumes _))
    (pseq_nonExp (consumes_nonExp (satisfy_consumes _))
      (pseq_nonExp (pmap_nonExp _ (many1_nonExp (consumes_nonExp (satisfy_consumes _))))
        (consumes_nonExp (satisfy_consumes _))))))

theorem textP_consumes : Consumes textP :=
  pmap_consumes _ (many1_consumes (satisfy_consumes _))

theorem nodesRaw_nonExp {elem : Parser Node} (h : NonExp elem) : NonExp (nodesRaw elem) :=
  attempt_nonExp (pmany_nonExp (porElse_nonExp (attempt_nonExp h)
    (attempt_nonExp (consumes_nonExp textP_consumes))))

theorem nodesOf_nonExp {elem : Parser Node} (h : NonExp elem) : NonExp (nodesOf elem) :=
  pmap_nonExp _ (nodesRaw_nonExp h)

theorem elementCore_consumes {nodes : Parser (List Node)} (h : NonExp nodes) :
    Consumes (elementCore nodes) := by
  unfold elementCore pseq5
  exact pandThen_consumes _ (pmap_consumes _ (pseq_consumes_left openTagP_consumes
    (pseq_nonExp blankP_nonExp (pseq_nonExp h (pseq_nonExp blankP_nonExp closeTagP_nonExp)))))

theorem elementF_consumes : ∀ fuel, Consumes (elementF fuel) := by
  intro fuel
  induction fuel with
  | zero => intro inp a r c h; cases h
  | succ n ih =>
    unfold elementF
    exact elementCore_consumes (nodesOf_nonExp (consumes_nonExp ih))

/-- The alternative repeated by `nodes_` never fails after consuming: both
branches are wrapped in `attempt`. -/
theorem nodesItem_noConsErr (elem : Parser Node) :
    NoConsErr (porElse (attempt elem) (attempt textP)) :=
  porElse_noConsErr (attempt_noConsErr _) (attempt_noConsErr _)

/-- The alternative repeated by `nodes_` consumes on success whenever the
element parser does. -/
theorem nodesItem_consumes {elem : Parser Node} (h : Consumes elem) :
    Consumes (porElse (attempt elem) (attempt textP)) :=
  porElse_consumes (attempt_consumes h) (attempt_consumes textP_consumes)

/-- `nodes()` succeeds on every input, for any element parser that consumes
on success. -/
theorem nodesOf_total {elem : Parser Node} (h : Consumes elem) (inp : List Char) :
    ∃ ns r c, nodesOf elem inp = .ok ns r c := by
  obtain ⟨as, r, c, hok⟩ :=
    manyAux_total (nodesItem_noConsErr elem) (nodesItem_consumes h)
      (Nat.lt_succ_self inp.length)
  have hp : pmany (porElse (attempt elem) (attempt textP)) inp = .ok as r c := hok
  refine ⟨nodesFilter as, r, c, ?_⟩
  unfold nodesOf nodesRaw
  exact pmap_ok_of (attempt_ok_of hp)

/-! ## Claim C1 -/

/-- C1, counterexample: on the mismatched input `<p>x</div>` the top-level
markup parse does NOT fail as a whole — it succeeds and returns a document
tree (a synthesized `html` element with no children) to the caller,
contradicting the claim that no partial document tree is ever returned. -/
theorem c1_counterexample :
    parse "<p>x</div>" = some (Element.new "html" AttrMap.empty []) := rfl

/-- C1, amended: a tag-name mismatch makes the *element* parse fail as a
unit (no partial element is produced; the error is reported as consuming),
but the *top-level* parse still succeeds: the repetition in `nodes` stops
before the unparseable element, so `parse` returns a tree — here a
synthesized `html` root with the mismatched element absent. -/
theorem c1_amended :
    elementP "<p>x</div>".data = .err true ∧
    nodesP "<p>x</div>".data = .ok [] "<p>x</div>".data false ∧
    parse "<p>x</div>" = some (Element.new "html" AttrMap.empty []) :=
  ⟨rfl, rfl, rfl⟩

/-! ## Claim C2 -/

/-- C2: for every input string the top-level node parser yields `Ok`
(discarding the unparsed remainder), so the `.unwrap()` inside `parse_raw`
never panics and `parse` totally returns a single node. -/
theorem c2_parse_always_succeeds (raw : String) :
    (∃ ns rest c, nodesP raw.data = .ok ns rest c) ∧
    (∃ ns, parse_raw raw = some ns) ∧
    (∃ n, parse raw = some n) := by
  obtain ⟨ns, rest, c, hok⟩ :=
    nodesOf_total (elementF_consumes raw.data.length) raw.data
  have hnp : nodesP raw.data = .ok ns rest c := hok
  have hpr : parse_raw raw = some ns := by
    unfold parse_raw
    simp only [hnp]
  refine ⟨⟨ns, rest, c, hok⟩, ⟨ns, hpr⟩, ?_⟩
  unfold parse
  rw [hpr]
  exact ⟨_, rfl⟩

/-! ## Claim C6 -/

/-- C6: when the fragment parse yields exactly one top-level node, `parse`
returns it unchanged as the root; otherwise (zero or several top-level
nodes) `parse` returns a synthesized attribute-less `html` element whose
children are exactly those nodes in order. -/
theorem c6_parse_root_synthesis :
    (∀ (raw : String) (n : Node), parse_raw raw = some [n] → parse raw = some n) ∧
    (∀ (raw : String) (ns : List Node), parse_raw raw = some ns → ns.length ≠ 1 →
      parse raw = some (Element.new "html" AttrMap.empty ns)) := by
  constructor
  · intro raw n h
    unfold parse
    rw [h]
    rfl
  · intro raw ns h hlen
    unfold parse
    rw [h]
    match ns, hlen with
    | [], _ => rfl
    | [n], hlen => exact absurd rfl hlen
    | n1 :: n2 :: rest, _ => rfl

/-- Witness for C6 at concrete inputs: `<p></p>` parses to one node returned
unchanged; `ab<p></p>` parses to two nodes wrapped in an `html` element. -/
theorem c6_witness :
    parse "<p></p>" = some (Element.new "p" AttrMap.empty []) ∧
    parse "ab<p></p>" =
      some (Element.new "html" AttrMap.empty
        [Text.new "ab", Element.new "p" AttrMap.empty []]) :=
  ⟨c6_parse_root_synthesis.1 "<p></p>" _ rfl,
   c6_parse_root_synthesis.2 "ab<p></p>"
     [Text.new "ab", Element.new "p" AttrMap.empty []] rfl (by simp)⟩

/-! ## Claim C7 -/

/-- C7: attribute-selector matching.  On an Element with the selector's tag
name, `=` requires exact string equality of the named attribute and `~=`
requires the attribute's whitespace-split value to contain the target token
exactly; with attribute value `"inline bold"` the `~=` selector for `bold`
matches while `=` for `bold` does not; attribute selectors fail on Text
nodes and on Elements with a different tag name. -/
theorem c7_attribute_selector_matching :
    (∀ (tag attr value : String) (e : Element) (cs : List Node),
      ((SimpleSelector.attributeSelector tag .eq attr value).matches
          (.mk (.element e) cs) = true ↔
        e.tag_name = tag ∧ e.attributes.get attr = some value) ∧
      ((SimpleSelector.attributeSelector tag .contain attr value).matches
          (.mk (.element e) cs) = true ↔
        e.tag_name = tag ∧
          ∃ v, e.attributes.get attr = some v ∧ value.data ∈ splitWhitespace v.data)) ∧
    (∀ (tag attr value : String) (op : AttributeSelectorOp) (t : Text) (cs : List Node),
      (SimpleSelector.attributeSelector tag op attr value).matches
        (.mk (.text t) cs) = false) ∧
    (∀ (tag attr value : String) (op : AttributeSelectorOp) (e : Element) (cs : List Node),
      e.tag_name ≠ tag →
      (SimpleSelector.attributeSelector tag op attr value).matches
        (.mk (.element e) cs) = false) ∧
    ((SimpleSelector.attributeSelector "p" .contain "class" "bold").matches
        (Element.new "p" [("class", "inline bold")] []) = true ∧
     (SimpleSelector.attributeSelector "p" .eq "class" "bold").matches
        (Element.new "p" [("class", "inline bold")] []) = false) := by
  refine ⟨?_, ?_, ?_, by decide, by decide⟩
  · intro tag attr value e cs
    constructor
    · simp only [SimpleSelector.matches, Node.node_type]
      by_cases htag : e.tag_name = tag
      · simp [htag]
      · simp [htag, beq_eq_false_iff_ne.mpr htag]
    · simp only [SimpleSelector.matches, Node.node_type]
      by_cases htag : e.tag_name = tag
      · cases hv : e.attributes.get attr with
        | none => simp [htag, hv]
        | some v =>
          simp only [htag, beq_self_eq_true, Bool.not_true, Bool.false_eq_true,
            if_false, hv, List.any_eq_true, true_and, Option.some.injEq]
          constructor
          · intro ⟨w, hw, hbeq⟩
            exact ⟨v, rfl, (eq_of_beq hbeq) ▸ hw⟩
          · intro ⟨v', hv', hmem⟩
            exact ⟨value.data, hv' ▸ hmem, beq_self_eq_true _⟩
      · simp [htag, beq_eq_false_iff_ne.mpr htag]
  · intro tag attr value op t cs
    cases op <;> rfl
  · intro tag attr value op e cs htag
    have hb : (e.tag_name == tag) = false := beq_eq_false_iff_ne.mpr htag
    cases op <;> simp [SimpleSelector.matches, Node.node_type, hb]

/-- Witness for C7: a selector with a different tag name fails on a concrete
element. -/
theorem c7_witness :
    (SimpleSelector.attributeSelector "q" .eq "id" "x").matches
      (.mk (.element ⟨"p", [("id", "x")]⟩) []) = false :=
  c7_attribute_selector_matching.2.2.1 "q" "id" "x" .eq ⟨"p", [("id", "x")]⟩ []
    (by decide)

/-! ## Claim C8 -/

/-- C8: class-selector matching requires the node to be an Element whose
`class` attribute is exactly string-equal to the selector's class name as a
whole — no whitespace token-membership: with `class="inline bold"` the
selector `.inline` does not match — and it never matches a Text node. -/
theorem c8_class_selector_matching :
    (∀ (cn : String) (n : Node),
      (SimpleSelector.classSelector cn).matches n = true ↔
        ∃ e cs, n = .mk (.element e) cs ∧ e.attributes.get "class" = some cn) ∧
    ((SimpleSelector.classSelector "inline").matches
        (Element.new "p" [("class", "inline bold")] []) = false) ∧
    (∀ (cn : String) (t : Text) (cs : List Node),
      (SimpleSelector.classSelector cn).matches (.mk (.text t) cs) = false) := by
  refine ⟨?_, by decide, fun cn t cs => rfl⟩
  intro cn n
  cases n with
  | mk nt cs =>
    cases nt with
    | element e =>
      simp [SimpleSelector.matches, Node.node_type]
    | text t =>
      simp [SimpleSelector.matches, Node.node_type]

/-! ## Claim C10 -/

/-- Membership-based induction principle for the nested `Node` tree. -/
theorem nodeRecMem {P : Node → Prop}
    (h : ∀ nt cs, (∀ c ∈ cs, P c) → P (.mk nt cs)) : ∀ n, P n
  | .mk nt cs => h nt cs (fun c hc => nodeRecMem h c)
decreasing_by
  have := List.sizeOf_lt_of_mem hc
  simp only [Node.mk.sizeOf_spec]
  omega

/-- The search condition of `get_element_by_id`, stated as the claim does:
the node is an Element whose `id` attribute equals the target. -/
def isElemWithId (i : String) (n : Node) : Bool :=
  match n.node_type with
  | .element e => e.attributes.get "id" == some i
  | .text _ => false

theorem id_cond_eq (e : Element) (i : String) (cs : List Node) :
    (e.id.map (fun eid => eid == i)).getD false = isElemWithId i (.mk (.element e) cs) := by
  show (Option.map (fun eid => eid == i) (e.attributes.get "id")).getD false
      = (e.attributes.get "id" == some i)
  cases e.attributes.get "id" with
  | none => rfl
  | some v => rfl

theorem getByIdList_eq_find (i : String) (cs : List Node)
    (ih : ∀ c ∈ cs, Node.get_element_by_id c i = (Node.preorder c).find? (isElemWithId i)) :
    getByIdList cs i = (preorderList cs).find? (isElemWithId i) := by
  induction cs with
  | nil => simp [getByIdList, preorderList]
  | cons c cs' ih2 =>
    rw [getByIdList, preorderList, List.find?_append,
      ← ih c (List.mem_cons_self c cs'),
      ih2 (fun c' hc' => ih c' (List.mem_cons_of_mem c hc'))]
    cases Node.get_element_by_id c i <;> rfl

theorem getById_eq_find (i : String) :
    ∀ n : Node, Node.get_element_by_id n i = (Node.preorder n).find? (isElemWithId i) := by
  refine nodeRecMem ?_
  intro nt cs ih
  cases nt with
  | element e =>
    have hcond := id_cond_eq e i cs
    simp only [Node.get_element_by_id, Node.preorder]
    by_cases hc : (e.id.map (fun eid => eid == i)).getD false = true
    · rw [if_pos hc, List.find?_cons_of_pos _ (hcond ▸ hc)]
    · rw [if_neg hc, List.find?_cons_of_neg _ (hcond ▸ hc), getByIdList_eq_find i cs ih]
  | text t =>
    simp only [Node.get_element_by_id, Node.preorder]
    rw [List.find?_cons_of_neg _ (by simp [isElemWithId, Node.node_type]),
      getByIdList_eq_find i cs ih]

/-- C10: `get_element_by_id` returns the first node in pre-order
depth-first order (the node itself before its children, children in
sequence order) that is an Element whose `id` attribute equals the target,
and returns `none` iff no such Element exists in the tree. -/
theorem c10_get_element_by_id (n : Node) (i : String) :
    n.get_element_by_id i = (n.preorder).find? (isElemWithId i) ∧
    (n.get_element_by_id i = none ↔ ∀ m ∈ n.preorder, isElemWithId i m = false) := by
  refine ⟨getById_eq_find i n, ?_⟩
  rw [getById_eq_find i n, List.find?_eq_none]
  constructor
  · intro h m hm
    exact Bool.not_eq_true _ ▸ h m hm
  · intro h m hm
    simp [h m hm]

/-! ## Claims C3 and C4 -/

def BoxType.isBlock : BoxType → Bool
  | .blockBox _ => true
  | _ => false

def BoxType.isInline : BoxType → Bool
  | .inlineBox _ => true
  | _ => false

def BoxType.isAnonymous : BoxType → Bool
  | .anonymousBox => true
  | _ => false

/-- The structural invariant `LayoutBox::new` actually maintains: a
BlockBox's direct children are all BlockBoxes or AnonymousBoxes, and an
AnonymousBox's children are all InlineBoxes.  (No constraint on the
children of an InlineBox: block-in-inline is not fixed up.) -/
inductive BoxInv : LayoutBox → Prop where
  | mk : ∀ bt cs,
      (bt.isBlock = true →
        ∀ c ∈ cs, (LayoutBox.box_type c).isBlock = true ∨ (LayoutBox.box_type c).isAnonymous = true) →
      (bt.isAnonymous = true → ∀ c ∈ cs, (LayoutBox.box_type c).isInline = true) →
      (∀ c ∈ cs, BoxInv c) →
      BoxInv (.mk bt cs)

theorem insertChild_box_type (root child : LayoutBox) :
    (root.insertChild child).box_type = root.box_type := by
  obtain ⟨bt, cs⟩ := root
  obtain ⟨cbt, ccs⟩ := child
  unfold LayoutBox.insertChild
  cases cbt with
  | blockBox p => rfl
  | anonymousBox => rfl
  | inlineBox p =>
    cases bt with
    | inlineBox q => rfl
    | anonymousBox => rfl
    | blockBox q =>
      simp only [LayoutBox.box_type, LayoutBox.children]
      cases hl : cs.getLast? with
      | none => rfl
      | some lst =>
        obtain ⟨lbt, lcs⟩ := lst
        cases lbt <;> rfl

theorem boxInv_children {bt : BoxType} {cs : List LayoutBox}
    (h : BoxInv (.mk bt cs)) : ∀ c ∈ cs, BoxInv c := by
  cases h with
  | mk _ _ _ _ hmem => exact hmem

theorem boxInv_children_blk {bt : BoxType} {cs : List LayoutBox}
    (h : BoxInv (.mk bt cs)) : bt.isBlock = true →
    ∀ c ∈ cs, (LayoutBox.box_type c).isBlock = true ∨ (LayoutBox.box_type c).isAnonymous = true := by
  cases h with
  | mk _ _ hblk _ _ => exact hblk

theorem boxInv_children_anon {bt : BoxType} {cs : List LayoutBox}
    (h : BoxInv (.mk bt cs)) : bt.isAnonymous = true →
    ∀ c ∈ cs, (LayoutBox.box_type c).isInline = true := by
  cases h with
  | mk _ _ _ hanon _ => exact hanon

theorem insertChild_inv {root child : LayoutBox} (hroot : BoxInv root)
    (hrootbt : root.box_type.isAnonymous = false) (hchild : BoxInv child) :
    BoxInv (root.insertChild child) := by
  obtain ⟨bt, cs⟩ := root
  obtain ⟨cbt, ccs⟩ := child
  have hblk := boxInv_children_blk hroot
  have hmem := boxInv_children hroot
  simp only [LayoutBox.box_type] at hrootbt
  cases cbt with
  | anonymousBox =>
    simp only [LayoutBox.insertChild, LayoutBox.box_type]
    exact hroot
  | blockBox p =>
    simp only [LayoutBox.insertChild, LayoutBox.box_type, LayoutBox.children]
    refine .mk _ _ ?_ ?_ ?_
    · intro hb c hcmem
      rcases List.mem_append.mp hcmem with h1 | h1
      · exact hblk hb c h1
      · rw [List.mem_singleton.mp h1]
        exact Or.inl rfl
    · intro ha
      exact absurd ha (by simp [hrootbt])
    · intro c hcmem
      rcases List.mem_append.mp hcmem with h1 | h1
      · exact hmem c h1
      · rw [List.mem_singleton.mp h1]
        exact hchild
  | inlineBox p =>
    cases bt with
    | anonymousBox => simp [BoxType.isAnonymous] at hrootbt
    | inlineBox q =>
      simp only [LayoutBox.insertChild, LayoutBox.box_type, LayoutBox.children]
      refine .mk _ _ ?_ ?_ ?_
      · intro hb
        simp [BoxType.isBlock] at hb
      · intro ha
        simp [BoxType.isAnonymous] at ha
      · intro c hcmem
        rcases List.mem_append.mp hcmem with h1 | h1
        · exact hmem c h1
        · rw [List.mem_singleton.mp h1]
          exact hchild
    | blockBox q =>
      cases hl : cs.getLast? with
      | none =>
        simp only [LayoutBox.insertChild, LayoutBox.box_type, LayoutBox.children, hl]
        refine .mk _ _ ?_ ?_ ?_
        · intro _ c hcmem
          rcases List.mem_append.mp hcmem with h1 | h1
          · exact hblk rfl c h1
          · rw [List.mem_singleton.mp h1]
            exact Or.inr rfl
        · intro ha
          simp [BoxType.isAnonymous] at ha
        · intro c hcmem
          rcases List.mem_append.mp hcmem with h1 | h1
          · exact hmem c h1
          · rw [List.mem_singleton.mp h1]
            refine .mk _ _ ?_ ?_ ?_
            · intro hb
              simp [BoxType.isBlock] at hb
            · intro _ c2 hc2
              rw [List.mem_singleton.mp hc2]
              rfl
            · intro c2 hc2
              rw [List.mem_singleton.mp hc2]
              exact hchild
      | some lst =>
        obtain ⟨lbt, lcs⟩ := lst
        have hlmem : LayoutBox.mk lbt lcs ∈ cs := List.mem_of_getLast?_eq_some hl
        cases lbt with
        | anonymousBox =>
          simp only [LayoutBox.insertChild, LayoutBox.box_type, LayoutBox.children, hl]
          refine .mk _ _ ?_ ?_ ?_
          · intro _ c hcmem
            rcases List.mem_append.mp hcmem with h1 | h1
            · exact hblk rfl c (List.dropLast_subset _ h1)
            · rw [List.mem_singleton.mp h1]
              exact Or.inr rfl
          · intro ha
            simp [BoxType.isAnonymous] at ha
          · intro c hcmem
            rcases List.mem_append.mp hcmem with h1 | h1
            · exact hmem c (List.dropLast_subset _ h1)
            · rw [List.mem_singleton.mp h1]
              have hanonl := boxInv_children_anon (hmem _ hlmem)
              have hmeml := boxInv_children (hmem _ hlmem)
              refine .mk _ _ ?_ ?_ ?_
              · intro hb
                simp [BoxType.isBlock] at hb
              · intro _ c2 hc2
                rcases List.mem_append.mp hc2 with h2 | h2
                · exact hanonl rfl c2 h2
                · rw [List.mem_singleton.mp h2]
                  rfl
              · intro c2 hc2
                rcases List.mem_append.mp hc2 with h2 | h2
                · exact hmeml c2 h2
                · rw [List.mem_singleton.mp h2]
                  exact hchild
        | blockBox pb =>
          simp only [LayoutBox.insertChild, LayoutBox.box_type, LayoutBox.children, hl]
          refine .mk _ _ ?_ ?_ ?_
          · intro _ c hcmem
            rcases List.mem_append.mp hcmem with h1 | h1
            · exact hblk rfl c h1
            · rw [List.mem_singleton.mp h1]
              exact Or.inr rfl
          · intro ha
            simp [BoxType.isAnonymous] at ha
          · intro c hcmem
            rcases List.mem_append.mp hcmem with h1 | h1
            · exact hmem c h1
            · rw [List.mem_singleton.mp h1]
              refine .mk _ _ ?_ ?_ ?_
              · intro hb
                simp [BoxType.isBlock] at hb
              · intro _ c2 hc2
                rw [List.mem_singleton.mp hc2]
                rfl
              · intro c2 hc2
                rw [List.mem_singleton.mp hc2]
                exact hchild
        | inlineBox pb =>
          simp only [LayoutBox.insertChild, LayoutBox.box_type, LayoutBox.children, hl]
          refine .mk _ _ ?_ ?_ ?_
          · intro _ c hcmem
            rcases List.mem_append.mp hcmem with h1 | h1
            · exact hblk rfl c h1
            · rw [List.mem_singleton.mp h1]
              exact Or.inr rfl
          · intro ha
            simp [BoxType.isAnonymous] at ha
          · intro c hcmem
            rcases List.mem_append.mp hcmem with h1 | h1
            · exact hmem c h1
            · rw [List.mem_singleton.mp h1]
              refine .mk _ _ ?_ ?_ ?_
              · intro hb
                simp [BoxType.isBlock] at hb
              · intro _ c2 hc2
                rw [List.mem_singleton.mp hc2]
                rfl
              · intro c2 hc2
                rw [List.mem_singleton.mp hc2]
                exact hchild

theorem newFold_inv :
    ∀ (cs : List StyledNode) (root b : LayoutBox),
      (∀ c ∈ cs, ∀ cb, LayoutBox.new c = some cb → BoxInv cb) →
      BoxInv root → root.box_type.isAnonymous = false →
      newFold root cs = some b → BoxInv b := by
  intro cs
  induction cs with
  | nil =>
    intro root b _ hroot _ h
    rw [newFold] at h
    cases h
    exact hroot
  | cons c cs' ih =>
    intro root b hmem hroot hbt h
    rw [newFold] at h
    cases hnc : LayoutBox.new c with
    | none => rw [hnc] at h; cases h
    | some cb =>
      rw [hnc] at h
      exact ih (root.insertChild cb) b
        (fun c' hc' => hmem c' (List.mem_cons_of_mem c hc'))
        (insertChild_inv hroot hbt (hmem c (List.mem_cons_self c cs') cb hnc))
        ((insertChild_box_type root cb).symm ▸ hbt) h

/-- Membership-based induction principle for the nested `StyledNode` tree. -/
theorem styledNodeRecMem {P : StyledNode → Prop}
    (h : ∀ nt pm cs, (∀ c ∈ cs, P c) → P (.mk nt pm cs)) : ∀ s, P s
  | .mk nt pm cs => h nt pm cs (fun c hc => styledNodeRecMem h c)
decreasing_by
  have := List.sizeOf_lt_of_mem hc
  simp only [StyledNode.mk.sizeOf_spec]
  omega

theorem new_boxinv : ∀ (s : StyledNode) (b : LayoutBox),
    LayoutBox.new s = some b → BoxInv b := by
  refine styledNodeRecMem ?_
  intro nt pm cs ih b h
  cases hd : (StyledNode.mk nt pm cs).display with
  | none =>
    simp only [LayoutBox.new, hd] at h
    cases h
  | inline =>
    simp only [LayoutBox.new, hd] at h
    exact newFold_inv cs (.mk (.inlineBox ⟨nt, pm⟩) []) b
      (fun c hc cb hcb => ih c hc cb hcb)
      (.mk (.inlineBox ⟨nt, pm⟩) [] (by intro hb; simp [BoxType.isBlock] at hb)
        (by intro ha; simp [BoxType.isAnonymous] at ha)
        (by intro c hc; cases hc))
      rfl h
  | block =>
    simp only [LayoutBox.new, hd] at h
    exact newFold_inv cs (.mk (.blockBox ⟨nt, pm⟩) []) b
      (fun c hc cb hcb => ih c hc cb hcb)
      (.mk (.blockBox ⟨nt, pm⟩) [] (by intro _ c hc; cases hc)
        (by intro ha; simp [BoxType.isAnonymous] at ha)
        (by intro c hc; cases hc))
      rfl h

/-! ## Claim C3 -/

/-- C3, counterexample: an inline-display styled node with a single
block-display child produces an InlineBox that directly contains a BlockBox
among its children, contradicting the claim that an InlineBox never directly
contains a BlockBox (blocks appearing only under BlockBoxes or
AnonymousBoxes).  This mirrors `layout.rs`'s own test, where an InlineBox
holds two BlockBox children. -/
theorem c3_counterexample :
    LayoutBox.new
        (.mk (.element ⟨"span", AttrMap.empty⟩) [("display", .keyword "inline")]
          [.mk (.element ⟨"div", AttrMap.empty⟩) [("display", .keyword "block")] []]) =
      some (.mk
        (.inlineBox ⟨.element ⟨"span", AttrMap.empty⟩, [("display", .keyword "inline")]⟩)
        [.mk (.blockBox ⟨.element ⟨"div", AttrMap.empty⟩, [("display", .keyword "block")]⟩) []]) ∧
    BoxType.isInline
      (.inlineBox ⟨.element ⟨"span", AttrMap.empty⟩, [("display", .keyword "inline")]⟩) = true ∧
    BoxType.isBlock
      (.blockBox ⟨.element ⟨"div", AttrMap.empty⟩, [("display", .keyword "block")]⟩) = true :=
  ⟨rfl, rfl, rfl⟩

/-- C3, amended: the invariant `LayoutBox::new` really maintains.  In every
produced layout tree, the direct children of a BlockBox are each a BlockBox
or an AnonymousBox, and every child of an AnonymousBox is an InlineBox; an
InlineBox's children are unconstrained and may directly include BlockBoxes
(no block-in-inline fixup is performed). -/
theorem c3_amended_box_invariant (s : StyledNode) (b : LayoutBox)
    (h : LayoutBox.new s = some b) : BoxInv b :=
  new_boxinv s b h

/-- Witness for the amended C3 at a concrete styled tree (a block root with
one inline child). -/
theorem c3_witness :
    BoxInv (.mk (.blockBox ⟨.element ⟨"p", AttrMap.empty⟩, [("display", .keyword "block")]⟩)
      [.mk .anonymousBox
        [.mk (.inlineBox ⟨.text ⟨"x"⟩, [("display", .keyword "inline")]⟩) []]]) :=
  c3_amended_box_invariant
    (.mk (.element ⟨"p", AttrMap.empty⟩) [("display", .keyword "block")]
      [.mk (.text ⟨"x"⟩) [("display", .keyword "inline")] []])
    _ rfl

theorem newFold_box_type :
    ∀ (cs : List StyledNode) (root b : LayoutBox),
      newFold root cs = some b → b.box_type = root.box_type := by
  intro cs
  induction cs with
  | nil =>
    intro root b h
    rw [newFold] at h
    cases h
    rfl
  | cons c cs' ih =>
    intro root b h
    rw [newFold] at h
    cases hnc : LayoutBox.new c with
    | none => rw [hnc] at h; cases h
    | some cb =>
      rw [hnc] at h
      rw [ih (root.insertChild cb) b h, insertChild_box_type]

theorem new_box_type (s : StyledNode) (b : LayoutBox)
    (h : LayoutBox.new s = some b) :
    (s.display = .block → b.box_type = .blockBox ⟨s.node_type, s.properties⟩) ∧
    (s.display = .inline → b.box_type = .inlineBox ⟨s.node_type, s.properties⟩) := by
  obtain ⟨nt, pm, cs⟩ := s
  cases hd : (StyledNode.mk nt pm cs).display with
  | none =>
    simp only [LayoutBox.new, hd] at h
    cases h
  | inline =>
    simp only [LayoutBox.new, hd] at h
    refine ⟨?_, ?_⟩
    · intro hb
      cases hb
    · intro _
      rw [newFold_box_type cs _ b h]
      rfl
  | block =>
    simp only [LayoutBox.new, hd] at h
    refine ⟨?_, ?_⟩
    · intro _
      rw [newFold_box_type cs _ b h]
      rfl
    · intro hi
      cases hi

/-! ## Claim C4 -/

/-- C4: a Block-display styled node whose four children resolve, in order,
to displays Block, Inline, Inline, Block produces a BlockBox with exactly 3
children in order: the child BlockBox, one AnonymousBox containing the two
child InlineBoxes, and the other child BlockBox. -/
theorem c4_block_inline_inline_block (nt : NodeType) (pm : PropertyMap)
    (c1 c2 c3 c4 : StyledNode) (b1 b2 b3 b4 : LayoutBox)
    (hd : (StyledNode.mk nt pm [c1, c2, c3, c4]).display = .block)
    (h1 : c1.display = .block) (h2 : c2.display = .inline)
    (h3 : c3.display = .inline) (h4 : c4.display = .block)
    (hb1 : LayoutBox.new c1 = some b1) (hb2 : LayoutBox.new c2 = some b2)
    (hb3 : LayoutBox.new c3 = some b3) (hb4 : LayoutBox.new c4 = some b4) :
    LayoutBox.new (.mk nt pm [c1, c2, c3, c4]) =
      some (.mk (.blockBox ⟨nt, pm⟩) [b1, .mk .anonymousBox [b2, b3], b4]) ∧
    b1.box_type = .blockBox ⟨c1.node_type, c1.properties⟩ ∧
    b2.box_type = .inlineBox ⟨c2.node_type, c2.properties⟩ ∧
    b3.box_type = .inlineBox ⟨c3.node_type, c3.properties⟩ ∧
    b4.box_type = .blockBox ⟨c4.node_type, c4.properties⟩ := by
  have e1 := (new_box_type c1 b1 hb1).1 h1
  have e2 := (new_box_type c2 b2 hb2).2 h2
  have e3 := (new_box_type c3 b3 hb3).2 h3
  have e4 := (new_box_type c4 b4 hb4).1 h4
  refine ⟨?_, e1, e2, e3, e4⟩
  obtain ⟨bt1, cs1⟩ := b1
  obtain ⟨bt2, cs2⟩ := b2
  obtain ⟨bt3, cs3⟩ := b3
  obtain ⟨bt4, cs4⟩ := b4
  simp only [LayoutBox.box_type] at e1 e2 e3 e4
  subst e1 e2 e3 e4
  simp only [LayoutBox.new, hd, newFold, hb1, hb2, hb3, hb4]
  rfl

/-- Witness for C4 at a concrete styled tree. -/
theorem c4_witness :
    LayoutBox.new (.mk (.element ⟨"div", AttrMap.empty⟩) [("display", .keyword "block")]
      [.mk (.element ⟨"p", AttrMap.empty⟩) [("display", .keyword "block")] [],
       .mk (.element ⟨"b", AttrMap.empty⟩) [("display", .keyword "inline")] [],
       .mk (.element ⟨"i", AttrMap.empty⟩) [("display", .keyword "inline")] [],
       .mk (.element ⟨"q", AttrMap.empty⟩) [("display", .keyword "block")] []]) =
      some (.mk (.blockBox ⟨.element ⟨"div", AttrMap.empty⟩, [("display", .keyword "block")]⟩)
        [.mk (.blockBox ⟨.element ⟨"p", AttrMap.empty⟩, [("display", .keyword "block")]⟩) [],
         .mk .anonymousBox
           [.mk (.inlineBox ⟨.element ⟨"b", AttrMap.empty⟩, [("display", .keyword "inline")]⟩) [],
            .mk (.inlineBox ⟨.element ⟨"i", AttrMap.empty⟩, [("display", .keyword "inline")]⟩) []],
         .mk (.blockBox ⟨.element ⟨"q", AttrMap.empty⟩, [("display", .keyword "block")]⟩) []]) :=
  (c4_block_inline_inline_block
    (.element ⟨"div", AttrMap.empty⟩) [("display", .keyword "block")]
    (.mk (.element ⟨"p", AttrMap.empty⟩) [("display", .keyword "block")] [])
    (.mk (.element ⟨"b", AttrMap.empty⟩) [("display", .keyword "inline")] [])
    (.mk (.element ⟨"i", AttrMap.empty⟩) [("display", .keyword "inline")] [])
    (.mk (.element ⟨"q", AttrMap.empty⟩) [("display", .keyword "block")] [])
    (.mk (.blockBox ⟨.element ⟨"p", AttrMap.empty⟩, [("display", .keyword "block")]⟩) [])
    (.mk (.inlineBox ⟨.element ⟨"b", AttrMap.empty⟩, [("display", .keyword "inline")]⟩) [])
    (.mk (.inlineBox ⟨.element ⟨"i", AttrMap.empty⟩, [("display", .keyword "inline")]⟩) [])
    (.mk (.blockBox ⟨.element ⟨"q", AttrMap.empty⟩, [("display", .keyword "block")]⟩) [])
    rfl rfl rfl rfl rfl rfl rfl rfl rfl).1

/-! ## Claim C9 -/

theorem dropWhile_dropWhile (p : Char → Bool) (l : List Char) :
    (l.dropWhile p).dropWhile p = l.dropWhile p := by
  induction l with
  | nil => rfl
  | cons c t ih =>
    by_cases h : p c
    · simp [List.dropWhile_cons, h, ih]
    · simp [List.dropWhile_cons, h]

theorem dropWhile_fix_head (p : Char → Bool) (x : List Char)
    (h : x.dropWhile p = x) : ∀ c t, x = c :: t → p c = false := by
  intro c t hx
  subst hx
  rw [List.dropWhile_cons] at h
  cases hpc : p c with
  | false => rfl
  | true =>
    rw [if_pos hpc] at h
    have hlen := congrArg List.length h
    have hle := (List.dropWhile_sublist (l := t) p).length_le
    simp at hlen
    omega

theorem trimChars_idem (l : List Char) : trimChars (trimChars l) = trimChars l := by
  have key : ∀ m : List Char, m.dropWhile Char.isWhitespace = m →
      trimChars ((m.reverse.dropWhile Char.isWhitespace).reverse) =
        (m.reverse.dropWhile Char.isWhitespace).reverse := by
    intro m hmm
    set q := Char.isWhitespace with hq
    set t := (m.reverse.dropWhile q).reverse with ht
    have htr : t.reverse = m.reverse.dropWhile q := by rw [ht, List.reverse_reverse]
    have hstep1 : t.dropWhile q = t := by
      cases hte : t with
      | nil => rfl
      | cons c t2 =>
        have hpre : t ++ (m.reverse.takeWhile q).reverse = m := by
          rw [ht, ← List.reverse_append, List.takeWhile_append_dropWhile,
            List.reverse_reverse]
        have hm : m = c :: (t2 ++ (m.reverse.takeWhile q).reverse) := by
          conv_lhs => rw [← hpre, hte]
          rw [List.cons_append]
        have hpc : q c = false := dropWhile_fix_head q m hmm c _ hm
        rw [List.dropWhile_cons, if_neg (by simp [hpc])]
    show ((t.dropWhile q).reverse.dropWhile q).reverse = t
    rw [hstep1, htr, dropWhile_dropWhile, ← htr, List.reverse_reverse]
  show trimChars (((l.dropWhile Char.isWhitespace).reverse.dropWhile Char.isWhitespace).reverse)
      = ((l.dropWhile Char.isWhitespace).reverse.dropWhile Char.isWhitespace).reverse
  exact key (l.dropWhile Char.isWhitespace) (dropWhile_dropWhile _ l)

/-- Every Text node anywhere in the tree carries data that is already
trimmed (`trim` is the identity on it) and nonempty — in particular no
whitespace-only text node exists. -/
inductive TrimInv : Node → Prop where
  | mk : ∀ nt cs,
      (∀ t : Text, nt = .text t → trimChars t.data.data = t.data.data ∧ t.data.data ≠ []) →
      (∀ c ∈ cs, TrimInv c) →
      TrimInv (.mk nt cs)

theorem textP_ok_shape {inp : List Char} {n : Node} {r : List Char} {c : Bool}
    (h : textP inp = .ok n r c) :
    ∃ cs, n = Text.new (String.mk (trimChars cs)) := by
  obtain ⟨cs, -, hn⟩ := pmap_ok_inv h
  exact ⟨cs, hn⟩

theorem elementCore_ok_shape {nodes : Parser (List Node)} {inp : List Char}
    {n : Node} {r : List Char} {c : Bool} (h : elementCore nodes inp = .ok n r c) :
    ∃ name attrs children inp2 r2 c2, nodes inp2 = .ok children r2 c2 ∧
      n = Element.new name attrs children := by
  obtain ⟨v, hv, hf⟩ := pandThen_ok_inv h
  obtain ⟨w, hw, hid⟩ := pmap_ok_inv hv
  cases hid
  obtain ⟨r1, c1, d1, hopen, hrest, -⟩ := pseq_ok_inv hw
  obtain ⟨r2, c2, d2, hblank, hrest2, -⟩ := pseq_ok_inv hrest
  obtain ⟨r3, c3, d3, hnodes, -, -⟩ := pseq_ok_inv hrest2
  have hf2 : (if (w.1.1 == w.2.2.2.2) = true
      then some (Element.new w.1.1 w.1.2 w.2.2.1) else none) = some n := hf
  by_cases heq : (w.1.1 == w.2.2.2.2) = true
  · rw [if_pos heq] at hf2
    cases hf2
    exact ⟨w.1.1, w.1.2, w.2.2.1, r2, r3, c3, hnodes, rfl⟩
  · rw [if_neg heq] at hf2
    cases hf2

theorem nodesOf_inv {elem : Parser Node}
    (helem : ∀ inp n r c, elem inp = .ok n r c → TrimInv n) :
    ∀ {inp : List Char} {ns : List Node} {r : List Char} {c : Bool},
      nodesOf elem inp = .ok ns r c → ∀ n ∈ ns, TrimInv n := by
  intro inp ns r c h n hn
  obtain ⟨ns0, hraw, hns⟩ := pmap_ok_inv h
  subst hns
  obtain ⟨hmem0, hcond⟩ := List.mem_filter.mp hn
  have hpm : pmany (porElse (attempt elem) (attempt textP)) inp = .ok ns0 r c :=
    attempt_ok_inv hraw
  obtain ⟨inp2, r2, c2, hitem⟩ := manyAux_ok_mem hpm n hmem0
  rcases porElse_ok_inv hitem with hel | ⟨-, htx⟩
  · exact helem inp2 n r2 c2 (attempt_ok_inv hel)
  · obtain ⟨cs, hn2⟩ := textP_ok_shape (attempt_ok_inv htx)
    subst hn2
    refine TrimInv.mk _ _ ?_ (by intro c' hc'; cases hc')
    intro t ht
    cases ht
    refine ⟨trimChars_idem cs, ?_⟩
    simp only [Text.new, Node.node_type, nodesFilter] at hcond
    intro hnil
    have hnil2 : trimChars cs = [] := hnil
    rw [trimChars_idem, hnil2] at hcond
    simp at hcond

theorem elementF_inv :
    ∀ (fuel : Nat) (inp : List Char) (n : Node) (r : List Char) (c : Bool),
      elementF fuel inp = .ok n r c → TrimInv n := by
  intro fuel
  induction fuel with
  | zero => intro inp n r c h; cases h
  | succ m ih =>
    intro inp n r c h
    obtain ⟨name, attrs, children, inp2, r2, c2, hnodes, hn⟩ :=
      elementCore_ok_shape h
    subst hn
    refine TrimInv.mk _ _ (by intro t ht; cases ht) ?_
    intro ch hch
    exact nodesOf_inv (fun inp3 n3 r3 c3 h3 => ih inp3 n3 r3 c3 h3) hnodes ch hch

/-- C9: after any successful markup parse, every Text node in the tree has
data invariant under trimming (no leading/trailing whitespace) and nonempty
(whitespace-only text collapses away); concretely,
`<div>  <p>hi</p>  </div>` yields a `div` with exactly one child. -/
theorem c9_text_trimming :
    (∀ (raw : String) (n : Node), parse raw = some n → TrimInv n) ∧
    parse "<div>  <p>hi</p>  </div>" =
      some (Element.new "div" AttrMap.empty
        [Element.new "p" AttrMap.empty [Text.new "hi"]]) := by
  refine ⟨?_, rfl⟩
  intro raw n h
  unfold parse at h
  obtain ⟨ns, hns, hn⟩ := Option.map_eq_some'.mp h
  unfold parse_raw at hns
  cases hnp : nodesP raw.data with
  | err c => rw [hnp] at hns; cases hns
  | ok ns0 rest c =>
    rw [hnp] at hns
    cases hns
    have hall : ∀ m ∈ ns, TrimInv m :=
      nodesOf_inv (fun inp2 n2 r2 c2 h2 =>
        elementF_inv raw.data.length inp2 n2 r2 c2 h2) hnp
    subst hn
    match ns, hall with
    | [m], hall => exact hall m (List.mem_singleton.mpr rfl)
    | [], hall => exact TrimInv.mk _ _ (by intro t ht; cases ht) (by intro c' hc'; cases hc')
    | m1 :: m2 :: ms, hall =>
      exact TrimInv.mk _ _ (by intro t ht; cases ht) hall

/-- Witness for C9: the invariant holds of the tree parsed from a concrete
input with padded text. -/
theorem c9_witness : TrimInv (Element.new "p" AttrMap.empty [Text.new "hi"]) :=
  c9_text_trimming.1 "<p>  hi  </p>" _ rfl

/-! ## Claim C5 -/

theorem satisfy_noConsErr (q : Char → Bool) : NoConsErr (satisfy q) := by
  intro inp h
  unfold satisfy at h
  cases inp with
  | nil => simp at h
  | cons x xs =>
    by_cases hq : q x
    · simp [hq] at h
    · simp [hq] at h

theorem pmap_err_inv {p : Parser α} {f : α → β} {inp : List Char} {c : Bool}
    (h : pmap p f inp = .err c) : p inp = .err c := by
  unfold pmap at h
  split at h
  · cases h
  · rename_i heq
    cases h
    exact heq

theorem pseq_err_inv {p : Parser α} {q : Parser β} {inp : List Char} {c : Bool}
    (h : pseq p q inp = .err c) :
    p inp = .err c ∨
      ∃ a r1 c1 c2, p inp = .ok a r1 c1 ∧ q r1 = .err c2 ∧ c = (c1 || c2) := by
  unfold pseq at h
  split at h
  · rename_i heq
    cases h
    exact Or.inl heq
  · rename_i a r1 c1 heq1
    split at h
    · rename_i c2 heq2
      cases h
      exact Or.inr ⟨a, r1, c1, c2, heq1, heq2, rfl⟩
    · cases h

/-- `spaces()` always succeeds. -/
theorem spacesP_total (inp : List Char) : ∃ r c, spacesP inp = .ok () r c := by
  obtain ⟨as, r, c, h⟩ :=
    manyAux_total (satisfy_noConsErr Char.isWhitespace)
      (satisfy_consumes Char.isWhitespace) (Nat.lt_succ_self inp.length)
  have hp : pmany spaceP inp = .ok as r c := h
  exact ⟨r, c, pmap_ok_of hp⟩

/-- A `spaces()` run that reports no consumption did not move. -/
theorem spacesP_flagFalse {inp r : List Char} (h : spacesP inp = .ok () r false) :
    r = inp := by
  obtain ⟨as, hp, -⟩ := pmap_ok_inv h
  exact manyAux_flagFalse (satisfy_flagTrue _) hp

/-- A `spaces()` run stops at a non-whitespace position. -/
theorem spacesP_stop {inp r : List Char} {c : Bool} (h : spacesP inp = .ok () r c) :
    spaceP r = .err false := by
  obtain ⟨as, hp, -⟩ := pmap_ok_inv h
  exact manyAux_ok_stop hp

/-- At a non-whitespace position, `spaces()` is an empty success. -/
theorem spacesP_of_stop {inp : List Char} (h : spaceP inp = .err false) :
    spacesP inp = .ok () inp false := by
  have hp : pmany spaceP inp = .ok [] inp false := by
    unfold pmany manyAux
    simp only [h]
  exact pmap_ok_of hp

/-- Inversion for `sep_by`. -/
theorem sepBy_ok_inv {p : Parser α} {sep : Parser β} {inp : List Char}
    {as : List α} {r : List Char} {c : Bool} (h : sepBy p sep inp = .ok as r c) :
    (p inp = .err false ∧ as = [] ∧ r = inp ∧ c = false) ∨
      (∃ x r1 c1 xs c2, p inp = .ok x r1 c1 ∧
        pmany (pseqRight sep p) r1 = .ok xs r c2 ∧ as = x :: xs ∧ c = (c1 || c2)) := by
  unfold sepBy at h
  split at h
  · cases h
  · rename_i heq
    cases h
    exact Or.inl ⟨heq, rfl, rfl, rfl⟩
  · rename_i x r1 c1 heq1
    split at h
    · cases h
    · rename_i xs r2 c2 heq2
      cases h
      exact Or.inr ⟨x, r1, c1, xs, c2, heq1, heq2, rfl, rfl⟩

/-- When the repetition inside `sep_by(rule(), spaces())` stops without
consuming, the rule parser fails without consuming at that position, which is
also a non-whitespace position. -/
theorem sepRight_spaces_stop {p : Parser α} {mid : List Char}
    (h : pseqRight spacesP p mid = .err false) :
    p mid = .err false ∧ spaceP mid = .err false := by
  have hpe : pseq spacesP p mid = .err false := pmap_err_inv h
  rcases pseq_err_inv hpe with hsp | ⟨a, r1, c1, c2, hsp, hq, hc⟩
  · obtain ⟨r, c, hs⟩ := spacesP_total mid
    rw [hs] at hsp
    cases hsp
  · have hc1 : c1 = false := by
      cases c1 with
      | false => rfl
      | true => simp at hc
    have hc2 : c2 = false := by
      cases c2 with
      | false => rfl
      | true => rw [hc1] at hc; simp at hc
    subst hc1
    subst hc2
    obtain ⟨⟩ := a
    have hr1 : r1 = mid := spacesP_flagFalse hsp
    subst hr1
    exact ⟨hq, spacesP_stop hsp⟩

/-- C5: the stylesheet parse has no per-rule error isolation.  (1) Whenever
`rules()` succeeds, the unconsumed remainder is a position where the rule
parser fails without having consumed anything — so an error inside a rule
that has begun (an unrecognized operator after `tag[attr`, or a malformed
declaration after the selector and `{`) can never be skipped to yield a
partial stylesheet of the earlier rules.  (2) `css::parse` succeeds exactly
when the single `rules()` run does (errors are fatal to the whole call).
(3) Concretely, a stylesheet whose second rule has an unrecognized selector
operator (`q[x%y]`), or a malformed declaration (`q{color}`), fails as a
whole even though a valid rule precedes it. -/
theorem c5_css_no_rule_isolation :
    (∀ (inp : List Char) (rs : List Rule) (rest : List Char) (c : Bool),
      rulesP inp = .ok rs rest c → ruleP rest = .err false) ∧
    (∀ raw : String, (cssParse raw).isSome ↔ ∃ rs rest c, rulesP raw.data = .ok rs rest c) ∧
    cssParse "p{display:block} q[x%y]{a:b}" = none ∧
    cssParse "p{display:block} q{color}" = none := by
  refine ⟨?_, ?_, rfl, rfl⟩
  · intro inp rs rest c h
    obtain ⟨v3, h3, -⟩ := pmap_ok_inv h
    obtain ⟨w, hw, hid⟩ := pmap_ok_inv h3
    cases hid
    obtain ⟨r1, c1, d1, hsp1, hrest, -⟩ := pseq_ok_inv hw
    obtain ⟨r2, c2, d2, hsep, hsp2, -⟩ := pseq_ok_inv hrest
    obtain ⟨⟩ := w.1
    rcases sepBy_ok_inv hsep with ⟨hper, -, hreq, -⟩ | ⟨x, rr1, cc1, xs, cc2, hp, hmany, -, -⟩
    · rw [hreq] at hsp2
      have hs1 : spaceP r1 = .err false := spacesP_stop hsp1
      have hs2 : spacesP r1 = .ok () r1 false := spacesP_of_stop hs1
      rw [hs2] at hsp2
      cases hsp2
      exact hreq ▸ hper
    · have hstop : pseqRight spacesP ruleP r2 = .err false := by
        have hm2 : manyAux (pseqRight spacesP ruleP) (rr1.length + 1) rr1 =
            .ok xs r2 cc2 := hmany
        exact manyAux_ok_stop hm2
      obtain ⟨hrule, hsp⟩ := sepRight_spaces_stop hstop
      have hs2 : spacesP r2 = .ok () r2 false := spacesP_of_stop hsp
      rw [hs2] at hsp2
      cases hsp2
      exact hrule
  · intro raw
    unfold cssParse
    cases hr : rulesP raw.data with
    | ok rs rest c =>
      exact ⟨fun _ => ⟨rs, rest, c, rfl⟩, fun _ => rfl⟩
    | err c =>
      refine ⟨fun hs => absurd hs (by simp), ?_⟩
      rintro ⟨rs, rest, c2, hok⟩
      cases hok

/-- Witness for C5: a concrete successful parse whose remainder (`@x`) is a
position where the rule parser fails without consuming. -/
theorem c5_witness :
    ruleP "@x".data = .err false :=
  c5_css_no_rule_isolation.1 "p{a:b}@x".data
    [⟨[.typeSelector "p"], [⟨"a", .keyword "b"⟩]⟩] "@x".data true rfl

end SmallBrowser
